import Mathlib

/-!
Verification of the brownieGate API client (src/browniegate/brownie_gate.py).

The client is embedded shallowly:

* Python byte strings and text strings are modelled as `Bytes := List Nat`
  (one element per byte / code point).
* Parsed JSON values are modelled by the inductive `PyValue`.
* Each client method becomes a Lean function of the client configuration,
  its explicit arguments, the local clock (for `verify_payload`) and the
  HTTP response the remote server would give to the single POST the method
  performs.  The function returns an `MOut α`: the list of debug lines
  printed, the list of HTTP requests issued, and the Python return value or
  raised exception (`Except PyErr α`).
* The `cryptography.fernet` dependency is not part of this repository;
  following the spec it is modelled as an idealized deterministic
  authenticated symmetric scheme (`fernetEncrypt` / `fernetDecrypt`).
* The standard-library helpers used by the source (`urllib.parse.unquote`,
  `json.loads` / `json.dumps`, `ast.literal_eval`,
  `datetime.fromisoformat`) are modelled executably on the fragment of
  their input language the client exercises.
-/

/-- A Python byte string / text string: one `Nat` per byte. -/
abbrev Bytes := List Nat

/-- Code points of a Lean string literal, used to write byte strings. -/
def strB (s : String) : Bytes := s.data.map Char.toNat

/-- A parsed JSON / Python value as far as the client manipulates them. -/
inductive PyValue where
  | none : PyValue
  | bool : Bool → PyValue
  | str : Bytes → PyValue
  | dict : List (Bytes × PyValue) → PyValue

/-- Python truthiness (`if value:`) for the values above. -/
def PyValue.truthy : PyValue → Bool
  | .none => false
  | .bool b => b
  | .str s => !s.isEmpty
  | .dict d => !d.isEmpty

/-- `d.get(k)` on a Python dict: the stored value, or `None` when absent. -/
def dictGet (d : List (Bytes × PyValue)) (k : Bytes) : PyValue :=
  match d.lookup k with
  | some v => v
  | Option.none => .none

/-- The exceptions the client can raise.  The source raises bare
`Exception(...)`; the spec names the decryption-failure and
remote-communication wrappers, and `datetime.fromisoformat` escapes
unwrapped as `TypeError` / `ValueError`. -/
inductive PyErr where
  | decryptionError
  | communicationError
  | typeError
  | valueError
  | attributeError
deriving DecidableEq

/-- The immutable client state built by `brownieGate.__init__`
(`base_url` stands for the already slash-stripped URL). -/
structure BrownieGate where
  api_key : Bytes
  project_uuid : Bytes
  encryption_key : Bytes
  base_url : Bytes
  debug : Bool

/-- One HTTP POST issued through `requests.post`. -/
structure Request where
  url : Bytes
  headers : List (Bytes × Bytes)
  params : List (Bytes × PyValue)

/-- The response the remote API would give to a method's single POST:
its HTTP status code and its parsed JSON body. -/
structure HttpResponse where
  status : Nat
  body : List (Bytes × PyValue)

/-- The observable outcome of one method call: debug lines printed,
requests issued, and the returned value or raised exception. -/
structure MOut (α : Type) where
  printed : List Bytes
  requests : List Request
  result : Except PyErr α

/-- `self.base_headers` as built in `__init__`. -/
def baseHeaders (g : BrownieGate) : List (Bytes × Bytes) :=
  [(strB "authorization", g.api_key),
   (strB "project-uuid", g.project_uuid),
   (strB "Content-Type", strB "application/json")]

/-! ## Idealized Fernet (authenticated symmetric encryption)

Modelled from the spec: the `cryptography.fernet.Fernet` dependency is not
part of this repository; per the spec it is "an authenticated symmetric
scheme (integrity-checked, not just confidentiality) so tampering is
detected as a decryption failure".  We model it as a deterministic
authenticated scheme over byte strings.  A token is the plaintext encoded
two safe bytes per plaintext byte (alphabet 71..86, i.e. URL-safe letters,
matching Fernet's URL-safe base64 output), a separator byte 46 (a dot),
and an authentication tag over key and plaintext, also written with the
digit alphabet 71..86.  Decryption recovers the plaintext and accepts the
token only if it is exactly the canonical token for that plaintext under
the decrypting key: the idealization of Fernet's HMAC check. -/

/-- All entries are actual byte values (Python byte strings satisfy this). -/
abbrev Ok256 (l : Bytes) : Prop := ∀ x ∈ l, x < 256

/-- One plaintext byte as two token bytes from the alphabet 71..86. -/
def armorByte (b : Nat) : Bytes := [71 + b / 16, 71 + b % 16]

/-- The plaintext part of a token. -/
def armorBody (m : Bytes) : Bytes := m.flatMap armorByte

/-- Injective numeric code of a byte string (base-257 with digits 1..256). -/
def encBytes (l : Bytes) : Nat := l.foldr (fun b acc => (b + 1) + 257 * acc) 0

/-- The authentication tag: an injective function of key and plaintext. -/
def fernetTag (key m : Bytes) : Nat := Nat.pair (encBytes key) (encBytes m)

/-- Base-16 digits of `n` in the alphabet 71..86, least significant first.
The first argument is recursion fuel (any bound on the digit count). -/
def armorDigits : Nat → Nat → Bytes
  | 0, n => [71 + n % 16]
  | fuel + 1, n => if n < 16 then [71 + n] else (71 + n % 16) :: armorDigits fuel (n / 16)

/-- Numeric value of a digit string produced by `armorDigits`. -/
def armorVal (l : Bytes) : Nat := l.foldr (fun d acc => (d - 71) + 16 * acc) 0

/-- Digit-count fuel sufficient for the tag of `key` and `m`. -/
def tagFuel (key m : Bytes) : Nat := 8 * (key.length + m.length) + 80

/-- The tag part of a token. -/
def tagArmor (key m : Bytes) : Bytes := armorDigits (tagFuel key m) (fernetTag key m)

/-- `Fernet(key).encrypt(m)` in the idealized model. -/
def fernetEncrypt (key m : Bytes) : Bytes := armorBody m ++ 46 :: tagArmor key m

/-- Split a byte string at the first occurrence of `sep`. -/
def splitAtFirst (sep : Nat) : Bytes → Option (Bytes × Bytes)
  | [] => Option.none
  | c :: rest =>
    if c = sep then some ([], rest)
    else (splitAtFirst sep rest).map (fun p => (c :: p.1, p.2))

/-- Decode the plaintext part of a token (two alphabet bytes per byte). -/
def unarmor : Bytes → Option Bytes
  | [] => some []
  | h :: l :: rest =>
    if 71 ≤ h ∧ h ≤ 86 ∧ 71 ≤ l ∧ l ≤ 86 then
      (unarmor rest).map (fun m => ((h - 71) * 16 + (l - 71)) :: m)
    else Option.none
  | _ => Option.none

/-- `Fernet(key).decrypt(tok)` in the idealized model: recover the
plaintext and verify the whole token against the key (the HMAC check). -/
def fernetDecrypt (key tok : Bytes) : Option Bytes :=
  match splitAtFirst 46 tok with
  | Option.none => Option.none
  | some (bodyArm, _) =>
    match unarmor bodyArm with
    | Option.none => Option.none
    | some m => if tok = fernetEncrypt key m then some m else Option.none

/-- Token alphabet: every byte is the separator or an armor digit. -/
def TokOK (l : Bytes) : Prop := ∀ x ∈ l, x = 46 ∨ (71 ≤ x ∧ x ≤ 86)

/-! ## `urllib.parse` percent-coding (modelled from the spec) -/

/-- Is `c` an ASCII hex digit (`0-9A-Fa-f`)? -/
def isHexDigit (c : Nat) : Bool :=
  (48 ≤ c && c ≤ 57) || (65 ≤ c && c ≤ 70) || (97 ≤ c && c ≤ 102)

/-- Numeric value of an ASCII hex digit. -/
def hexVal (c : Nat) : Nat :=
  if c ≤ 57 then c - 48 else if c ≤ 70 then c - 55 else c - 87

/-- Percent-decoding worker; the fuel only needs to bound the number of
output characters, and every step emits one, so the input length works. -/
def unquoteF : Nat → Bytes → Bytes
  | 0, l => l
  | _ + 1, [] => []
  | fuel + 1, c :: rest =>
    if c = 37 then
      match rest with
      | a :: b :: rest2 =>
        if isHexDigit a && isHexDigit b then (hexVal a * 16 + hexVal b) :: unquoteF fuel rest2
        else 37 :: unquoteF fuel rest
      | _ => 37 :: unquoteF fuel rest
    else c :: unquoteF fuel rest

/-- `urllib.parse.unquote`: decode `%XX` sequences, leaving an invalid or
trailing percent sign literal, as Python does. -/
def unquote (l : Bytes) : Bytes := unquoteF l.length l

/-- No percent byte is followed by two hex digits, so `unquote` acts as
the identity. -/
def SafeQ (l : Bytes) : Prop :=
  ∀ p a b, l.get? p = some 37 → l.get? (p + 1) = some a → l.get? (p + 2) = some b →
    isHexDigit a = false ∨ isHexDigit b = false

/-- Bytes `urllib.parse.quote` leaves unescaped with its default `safe`
set: ASCII alphanumerics, `_ . - ~` and `/`. -/
def safeByte (b : Nat) : Bool :=
  (48 ≤ b && b ≤ 57) || (65 ≤ b && b ≤ 90) || (97 ≤ b && b ≤ 122) ||
  b = 45 || b = 46 || b = 95 || b = 126 || b = 47

/-- Upper-case hex digit of a value below 16. -/
def hexUpper (v : Nat) : Nat := if v < 10 then 48 + v else 55 + v

/-- `urllib.parse.quote`: percent-encode every unsafe byte. -/
def urlQuote (l : Bytes) : Bytes :=
  l.flatMap (fun b => if safeByte b then [b] else [37, hexUpper (b / 16 % 16), hexUpper (b % 16)])

/-! ## `json` and `ast.literal_eval` on the fragment the client uses

Modelled from the spec: `json.loads` / `json.dumps` and
`ast.literal_eval` are standard-library collaborators.  The client only
ever moves flat string-to-string objects through them (`{code, timestamp}`
payloads and `{user_id, hash}` cookies), so they are modelled on flat
objects of unescaped strings, written exactly as Python prints them
(`", "` and `": "` separators); everything outside that fragment parses
to `Option.none`. -/

/-- Parse one `"k": "v"` member (quote byte `q`), returning key, value and
the unconsumed input. -/
def parseKV (q : Nat) (l : Bytes) : Option (Bytes × Bytes × Bytes) :=
  match l with
  | c :: rest =>
    if c = q then
      match splitAtFirst q rest with
      | Option.none => Option.none
      | some (key, r1) =>
        match r1 with
        | 58 :: 32 :: c2 :: r2 =>
          if c2 = q then
            match splitAtFirst q r2 with
            | Option.none => Option.none
            | some (v, r3) => some (key, v, r3)
          else Option.none
        | _ => Option.none
    else Option.none
  | [] => Option.none

/-- Parse `"k": "v"` members (quote byte `q`) separated by `", "` up to a
closing brace byte 125.  The first `Nat` argument is recursion fuel; any
bound on the member count works. -/
def parseMembersQ (q : Nat) : Nat → Bytes → Option (List (Bytes × Bytes))
  | 0, _ => Option.none
  | fuel + 1, l =>
    match parseKV q l with
    | Option.none => Option.none
    | some (key, v, r3) =>
      match r3 with
      | 44 :: 32 :: more => (parseMembersQ q fuel more).map (fun ms => (key, v) :: ms)
      | [125] => some [(key, v)]
      | _ => Option.none

/-- Serialize members the way Python prints them (quote byte `q`). -/
def encMembersQ (q : Nat) : List (Bytes × Bytes) → Bytes
  | [] => []
  | (k, v) :: rest =>
    [q] ++ k ++ [q, 58, 32, q] ++ v ++ [q] ++
      (if rest.isEmpty then [] else [44, 32]) ++ encMembersQ q rest

/-- `json.loads` on a flat object of strings. -/
def jsonLoads (l : Bytes) : Option (List (Bytes × PyValue)) :=
  match l with
  | 123 :: rest =>
    if rest = [125] then some []
    else (parseMembersQ 34 rest.length rest).map (List.map (fun kv => (kv.1, PyValue.str kv.2)))
  | _ => Option.none

/-- `json.dumps` on a flat object of strings (default separators). -/
def jsonDumps (obj : List (Bytes × Bytes)) : Bytes :=
  [123] ++ encMembersQ 34 obj ++ [125]

/-- `ast.literal_eval` on a flat Python dict literal of strings. -/
def literalEvalDict (l : Bytes) : Option (List (Bytes × Bytes)) :=
  match l with
  | 123 :: rest =>
    if rest = [125] then some []
    else parseMembersQ 39 rest.length rest
  | _ => Option.none

/-- Lookup in a string-to-string dict, as Python `d.get(k)`. -/
def strDictGet (d : List (Bytes × Bytes)) (k : Bytes) : PyValue :=
  match d.lookup k with
  | some v => .str v
  | Option.none => .none

/-! ## `datetime` on the fragment the client uses

Modelled from the spec: `datetime.fromisoformat` and `datetime.now` are
standard-library collaborators.  Datetimes are modelled as whole seconds
since the proleptic-Gregorian epoch (day 1-01-01 = ordinal 0 here), which
is exact for the naive, second-resolution `YYYY-MM-DDTHH:MM:SS` timestamps
the payloads carry; other ISO-8601 shapes are outside the model and parse
to `Option.none`.  `timedelta(minutes=1)` is the literal 60. -/

/-- Gregorian leap year. -/
def isLeap (y : Nat) : Bool := (y % 4 = 0 && y % 100 ≠ 0) || y % 400 = 0

/-- Days in a month. -/
def daysInMonth (y mo : Nat) : Nat :=
  match mo with
  | 2 => if isLeap y then 29 else 28
  | 4 | 6 | 9 | 11 => 30
  | _ => 31

/-- Days in the months strictly before `mo` of year `y`. -/
def daysBeforeMonth (y mo : Nat) : Nat :=
  (List.range (mo - 1)).foldl (fun acc i => acc + daysInMonth y (i + 1)) 0

/-- Complete days before the date `y-mo-d` (so 1-01-01 maps to 0). -/
def toDays (y mo d : Nat) : Nat :=
  365 * (y - 1) + (y - 1) / 4 - (y - 1) / 100 + (y - 1) / 400 +
    daysBeforeMonth y mo + (d - 1)

/-- Is `c` an ASCII decimal digit? -/
def isDigit (c : Nat) : Bool := 48 ≤ c && c ≤ 57

/-- Value of a decimal digit. -/
def digitVal (c : Nat) : Nat := c - 48

/-- Parse a naive `YYYY-MM-DDTHH:MM:SS` timestamp to seconds.  Everything
else (including the ISO shapes the client never produces) is `none`. -/
def parseIso (s : Bytes) : Option Int :=
  match s with
  | [y1, y2, y3, y4, 45, m1, m2, 45, d1, d2, 84, h1, h2, 58, n1, n2, 58, s1, s2] =>
    if isDigit y1 && isDigit y2 && isDigit y3 && isDigit y4 &&
       isDigit m1 && isDigit m2 && isDigit d1 && isDigit d2 &&
       isDigit h1 && isDigit h2 && isDigit n1 && isDigit n2 &&
       isDigit s1 && isDigit s2 then
      let y := digitVal y1 * 1000 + digitVal y2 * 100 + digitVal y3 * 10 + digitVal y4
      let mo := digitVal m1 * 10 + digitVal m2
      let d := digitVal d1 * 10 + digitVal d2
      let h := digitVal h1 * 10 + digitVal h2
      let mi := digitVal n1 * 10 + digitVal n2
      let sec := digitVal s1 * 10 + digitVal s2
      if 1 ≤ y && 1 ≤ mo && mo ≤ 12 && 1 ≤ d && d ≤ daysInMonth y mo &&
         h ≤ 23 && mi ≤ 59 && sec ≤ 59 then
        some (((toDays y mo d * 24 + h) * 60 + mi) * 60 + sec : Nat)
      else Option.none
    else Option.none
  | _ => Option.none

/-- `datetime.fromisoformat(v)`: a `TypeError` on a non-string argument
(in particular on `None` from a missing key), a `ValueError` on a string
it cannot parse. -/
def fromisoformat : PyValue → Except PyErr Int
  | .str s =>
    match parseIso s with
    | some t => .ok t
    | Option.none => .error .valueError
  | _ => .error .typeError

/-! ## The client methods (src/browniegate/brownie_gate.py)

Each method takes the response its single POST would receive.  The
`try ... except Exception as e: raise Exception(str(e))` wrappers in the
source re-raise the same failure and so are identities on `PyErr`. -/

/-- `decrypt_payload` (lines 48-67): URL-decode, Fernet-decrypt, then
JSON-parse; any failure is re-raised as the decryption error. -/
def decrypt_payload (g : BrownieGate) (payload : Bytes) : Except PyErr (List (Bytes × PyValue)) :=
  match fernetDecrypt g.encryption_key (unquote payload) with
  | Option.none => .error .decryptionError
  | some decrypted =>
    match jsonLoads decrypted with
    | some d => .ok d
    | Option.none => .error .decryptionError

/-- `verify_payload` (lines 69-107): freshness check against the local
clock, then POST `/api/user/validate`. -/
def verify_payload (g : BrownieGate) (decrypted_payload : List (Bytes × PyValue))
    (now : Int) (resp : HttpResponse) : MOut (Bool × PyValue) :=
  match fromisoformat (dictGet decrypted_payload (strB "timestamp")) with
  | .error e => ⟨[], [], .error e⟩
  | .ok token_time =>
    if token_time > now + 60 then ⟨[], [], .ok (false, .str [])⟩
    else if token_time < now - 60 then ⟨[], [], .ok (false, .str [])⟩
    else
      { printed := if g.debug then [strB "Pinging validate user"] else []
        requests := [⟨g.base_url ++ strB "/api/user/validate", baseHeaders g,
                      [(strB "code", dictGet decrypted_payload (strB "code"))]⟩]
        result :=
          if resp.status = 200 then
            if (dictGet resp.body (strB "validated")).truthy then
              .ok (true, dictGet resp.body (strB "user_id"))
            else .ok (false, .str [])
          else .error .communicationError }

/-- `get_user_data` (lines 109-142): POST `/api/user/get_data`; on
`validated` pop that key, else return `(False, '')`. -/
def get_user_data (g : BrownieGate) (user_id : Bytes) (resp : HttpResponse) :
    MOut (Bool × PyValue) :=
  { printed := if g.debug then [strB "Pinging get user data"] else []
    requests := [⟨g.base_url ++ strB "/api/user/get_data", baseHeaders g,
                  [(strB "user_id", .str user_id)]⟩]
    result :=
      if resp.status = 200 then
        if (dictGet resp.body (strB "validated")).truthy then
          .ok (true, .dict (resp.body.filter (fun kv => kv.1 != strB "validated")))
        else .ok (false, .str [])
      else .error .communicationError }

/-- `generate_cookie` (lines 144-176): POST `/api/cookie/generate`; on
`success` Fernet-encrypt the issued cookie string, else return `None`.
A non-string `cookie` value has no `.encode()` and raises (wrapped). -/
def generate_cookie (g : BrownieGate) (user_id : Bytes) (resp : HttpResponse) :
    MOut (Option Bytes) :=
  { printed := if g.debug then [strB "Pinging generate cookie"] else []
    requests := [⟨g.base_url ++ strB "/api/cookie/generate", baseHeaders g,
                  [(strB "user_id", .str user_id)]⟩]
    result :=
      if resp.status = 200 then
        if (dictGet resp.body (strB "success")).truthy then
          match dictGet resp.body (strB "cookie") with
          | .str s => .ok (some (fernetEncrypt g.encryption_key s))
          | _ => .error .attributeError
        else .ok Option.none
      else .error .communicationError }

/-- `decrypt_cookie` (lines 178-198): Fernet-decrypt, `ast.literal_eval`,
then `.get` the two fields; any failure is re-raised (wrapped). -/
def decrypt_cookie (g : BrownieGate) (cookie : Bytes) : Except PyErr (PyValue × PyValue) :=
  match fernetDecrypt g.encryption_key cookie with
  | Option.none => .error .decryptionError
  | some data =>
    match literalEvalDict data with
    | Option.none => .error .decryptionError
    | some d => .ok (strDictGet d (strB "user_id"), strDictGet d (strB "hash"))

/-- `validate_cookie` (lines 200-229): POST `/api/cookie/validate`;
return `bool(result.get('success'))` on 200. -/
def validate_cookie (g : BrownieGate) (user_id cookie_hash : Bytes) (resp : HttpResponse) :
    MOut Bool :=
  { printed := if g.debug then [strB "Pinging validating cookie"] else []
    requests := [⟨g.base_url ++ strB "/api/cookie/validate", baseHeaders g,
                  [(strB "user_id", .str user_id), (strB "cookie_hash", .str cookie_hash)]⟩]
    result :=
      if resp.status = 200 then .ok (dictGet resp.body (strB "success")).truthy
      else .error .communicationError }

/-- `remove_cookie` (lines 231-252): POST `/api/cookie/remove`; silent on
200, raise otherwise. -/
def remove_cookie (g : BrownieGate) (user_id : Bytes) (resp : HttpResponse) : MOut Unit :=
  { printed := if g.debug then [strB "Pinging remove cookie"] else []
    requests := [⟨g.base_url ++ strB "/api/cookie/remove", baseHeaders g,
                  [(strB "user_id", .str user_id)]⟩]
    result := if resp.status ≠ 200 then .error .communicationError else .ok () }

/-- `get_pfp` (lines 254-284): POST `/api/user/get_pfp`; on `success`
return `result.get('pfp')`, else `False`. -/
def get_pfp (g : BrownieGate) (user_id : Bytes) (resp : HttpResponse) : MOut PyValue :=
  { printed := if g.debug then [strB "Pinging get user pfp"] else []
    requests := [⟨g.base_url ++ strB "/api/user/get_pfp", baseHeaders g,
                  [(strB "user_id", .str user_id)]⟩]
    result :=
      if resp.status = 200 then
        if (dictGet resp.body (strB "success")).truthy then .ok (dictGet resp.body (strB "pfp"))
        else .ok (.bool false)
      else .error .communicationError }

/-- A sample client configuration used by concrete instances. -/
def gEx : BrownieGate :=
  ⟨strB "apikey", strB "project", strB "secretkey", strB "https://api.example", false⟩

/-! ## Helper lemmas -/

theorem lookup_filter_self (l : List (Bytes × PyValue)) (k : Bytes) :
    (l.filter (fun kv => kv.1 != k)).lookup k = Option.none := by
  induction l with
  | nil => rfl
  | cons hd tl ih =>
    obtain ⟨k1, v1⟩ := hd
    by_cases hk : k1 = k
    · simpa [List.filter_cons, hk] using ih
    · have hb : (k == k1) = false := by simp [Ne.symm hk]
      simp [List.filter_cons, hk, List.lookup, hb, ih]

theorem lookup_filter_ne (l : List (Bytes × PyValue)) (k k' : Bytes) (hne : k' ≠ k) :
    (l.filter (fun kv => kv.1 != k)).lookup k' = l.lookup k' := by
  induction l with
  | nil => rfl
  | cons hd tl ih =>
    obtain ⟨k1, v1⟩ := hd
    by_cases hk : k1 = k
    · subst hk
      have hb : (k' == k1) = false := by simp [hne]
      simp [List.filter_cons, List.lookup, hb, ih]
    · by_cases hk' : k' = k1
      · subst hk'
        simp [List.filter_cons, hk, List.lookup]
      · have hb : (k' == k1) = false := by simp [hk']
        simp [List.filter_cons, hk, List.lookup, hb, ih]

/-! ### Fernet model lemmas -/

theorem armorByte_range (b x : Nat) (hb : b < 256) (hx : x ∈ armorByte b) :
    71 ≤ x ∧ x ≤ 86 := by
  simp only [armorByte, List.mem_cons, List.not_mem_nil, or_false] at hx
  rcases hx with h | h <;> subst h <;> omega

theorem armorBody_range (m : Bytes) (hm : Ok256 m) (x : Nat) (hx : x ∈ armorBody m) :
    71 ≤ x ∧ x ≤ 86 := by
  simp only [armorBody, List.mem_flatMap] at hx
  obtain ⟨b, hb, hxb⟩ := hx
  exact armorByte_range b x (hm b hb) hxb

theorem armorDigits_range (fuel : Nat) : ∀ n x, x ∈ armorDigits fuel n → 71 ≤ x ∧ x ≤ 86 := by
  induction fuel with
  | zero =>
    intro n x hx
    simp only [armorDigits, List.mem_cons, List.not_mem_nil, or_false] at hx
    omega
  | succ f ih =>
    intro n x hx
    simp only [armorDigits] at hx
    split at hx
    · simp only [List.mem_cons, List.not_mem_nil, or_false] at hx
      omega
    · rcases List.mem_cons.mp hx with h | h
      · omega
      · exact ih _ _ h

theorem fernetEncrypt_tokOK (key m : Bytes) (hm : Ok256 m) : TokOK (fernetEncrypt key m) := by
  intro x hx
  simp only [fernetEncrypt, List.mem_append, List.mem_cons] at hx
  rcases hx with h | h | h
  · exact Or.inr (armorBody_range m hm x h)
  · exact Or.inl h
  · exact Or.inr (armorDigits_range _ _ _ h)

theorem encBytes_cons (b : Nat) (l : Bytes) :
    encBytes (b :: l) = (b + 1) + 257 * encBytes l := rfl

theorem encBytes_inj : ∀ (l l' : Bytes), Ok256 l → Ok256 l' → encBytes l = encBytes l' →
    l = l' := by
  intro l
  induction l with
  | nil =>
    intro l' _ h' he
    cases l' with
    | nil => rfl
    | cons b t =>
      exfalso
      have hb := h' b (by simp)
      rw [encBytes_cons, show encBytes ([] : Bytes) = 0 from rfl] at he
      omega
  | cons a t ih =>
    intro l' h h' he
    cases l' with
    | nil =>
      exfalso
      have ha := h a (by simp)
      rw [encBytes_cons, show encBytes ([] : Bytes) = 0 from rfl] at he
      omega
    | cons b t' =>
      have ha := h a (by simp)
      have hb := h' b (by simp)
      rw [encBytes_cons, encBytes_cons] at he
      have hab : a = b ∧ encBytes t = encBytes t' := by omega
      have ht := ih t' (fun x hx => h x (by simp [hx])) (fun x hx => h' x (by simp [hx])) hab.2
      rw [hab.1, ht]

theorem encBytes_lt (l : Bytes) (h : Ok256 l) : encBytes l < 257 ^ l.length := by
  induction l with
  | nil => simp [encBytes]
  | cons a t ih =>
    have ha := h a (by simp)
    have ht := ih (fun x hx => h x (by simp [hx]))
    rw [encBytes_cons, List.length_cons, pow_succ]
    omega

theorem armorVal_cons (d : Nat) (l : Bytes) :
    armorVal (d :: l) = (d - 71) + 16 * armorVal l := rfl

theorem armorVal_armorDigits (fuel : Nat) : ∀ n, n < 16 ^ (fuel + 1) →
    armorVal (armorDigits fuel n) = n := by
  induction fuel with
  | zero =>
    intro n h
    have h16 : n < 16 := by
      have : (16:ℕ) ^ (0 + 1) = 16 := by norm_num
      omega
    show armorVal [71 + n % 16] = n
    rw [armorVal_cons, show armorVal ([] : Bytes) = 0 from rfl]
    omega
  | succ f ih =>
    intro n h
    simp only [armorDigits]
    split
    · rw [armorVal_cons, show armorVal ([] : Bytes) = 0 from rfl]
      omega
    · rw [armorVal_cons, ih (n / 16) ?hdiv]
      · omega
      case hdiv =>
        have h2 : n < 16 ^ (f + 1) * 16 := by rw [← pow_succ]; exact h
        omega

theorem fernetTag_lt (key m : Bytes) (hk : Ok256 key) (hm : Ok256 m) :
    fernetTag key m < 16 ^ (tagFuel key m + 1) := by
  have h1 := encBytes_lt key hk
  have h2 := encBytes_lt m hm
  have hp : Nat.pair (encBytes key) (encBytes m)
      < (encBytes key + encBytes m + 1) ^ 2 := by
    unfold Nat.pair
    split <;> nlinarith [sq_nonneg (encBytes key + encBytes m + 1)]
  have e1 : (257:ℕ) ^ key.length ≤ 257 ^ (key.length + m.length) :=
    Nat.pow_le_pow_right (by norm_num) (by omega)
  have e2 : (257:ℕ) ^ m.length ≤ 257 ^ (key.length + m.length) :=
    Nat.pow_le_pow_right (by norm_num) (by omega)
  have e3 : (1:ℕ) ≤ 257 ^ (key.length + m.length) := Nat.one_le_pow _ _ (by norm_num)
  have e4 : (257:ℕ) ^ (key.length + m.length + 1) = 257 ^ (key.length + m.length) * 257 :=
    pow_succ _ _
  have hab : encBytes key + encBytes m + 1 ≤ 257 ^ (key.length + m.length + 1) := by omega
  have hp2 : Nat.pair (encBytes key) (encBytes m)
      < (257 ^ (key.length + m.length + 1)) ^ 2 :=
    lt_of_lt_of_le hp (Nat.pow_le_pow_left hab 2)
  have hp3 : ((257:ℕ) ^ (key.length + m.length + 1)) ^ 2
      = 257 ^ ((key.length + m.length + 1) * 2) := by rw [← pow_mul]
  have hp4 : (257:ℕ) ^ ((key.length + m.length + 1) * 2)
      ≤ (16 ^ 3) ^ ((key.length + m.length + 1) * 2) :=
    Nat.pow_le_pow_left (by norm_num) _
  have hp5 : ((16:ℕ) ^ 3) ^ ((key.length + m.length + 1) * 2)
      = 16 ^ (3 * ((key.length + m.length + 1) * 2)) := by rw [← pow_mul]
  have hp6 : (16:ℕ) ^ (3 * ((key.length + m.length + 1) * 2))
      ≤ 16 ^ (tagFuel key m + 1) :=
    Nat.pow_le_pow_right (by norm_num) (by simp only [tagFuel]; omega)
  unfold fernetTag
  omega

theorem armorVal_tagArmor (key m : Bytes) (hk : Ok256 key) (hm : Ok256 m) :
    armorVal (tagArmor key m) = fernetTag key m :=
  armorVal_armorDigits _ _ (fernetTag_lt key m hk hm)

theorem armorBody_inj : ∀ (m m' : Bytes), Ok256 m → Ok256 m' → armorBody m = armorBody m' →
    m = m' := by
  intro m
  induction m with
  | nil =>
    intro m' _ _ he
    cases m' with
    | nil => rfl
    | cons b t => simp [armorBody, armorByte] at he
  | cons a t ih =>
    intro m' hm hm' he
    cases m' with
    | nil => simp [armorBody, armorByte] at he
    | cons b t' =>
      simp only [armorBody, List.flatMap_cons, armorByte, List.cons_append,
        List.nil_append] at he
      injection he with h1 he2
      injection he2 with h2 h3
      have ha := hm a (by simp)
      have hb := hm' b (by simp)
      have hab : a = b := by omega
      subst hab
      have ht := ih t' (fun x hx => hm x (by simp [hx])) (fun x hx => hm' x (by simp [hx]))
        (by simpa [armorBody] using h3)
      rw [ht]

theorem unarmor_cons2 (h l : Nat) (rest : Bytes) :
    unarmor (h :: l :: rest) =
      if 71 ≤ h ∧ h ≤ 86 ∧ 71 ≤ l ∧ l ≤ 86 then
        (unarmor rest).map (fun m => ((h - 71) * 16 + (l - 71)) :: m)
      else Option.none := rfl

theorem unarmor_armorBody (m : Bytes) (hm : Ok256 m) : unarmor (armorBody m) = some m := by
  induction m with
  | nil => rfl
  | cons a t ih =>
    have ha := hm a (by simp)
    have ht : Ok256 t := fun x hx => hm x (by simp [hx])
    show unarmor ((71 + a / 16) :: (71 + a % 16) :: armorBody t) = some (a :: t)
    rw [unarmor_cons2, if_pos (by omega), ih ht]
    show some (((71 + a / 16 - 71) * 16 + (71 + a % 16 - 71)) :: t) = some (a :: t)
    have hv : (71 + a / 16 - 71) * 16 + (71 + a % 16 - 71) = a := by omega
    rw [hv]

theorem unarmor_ok256 (A : Bytes) : ∀ m, unarmor A = some m → Ok256 m := by
  induction A using unarmor.induct with
  | case1 =>
    intro m h x hx
    rw [show unarmor [] = some [] from rfl] at h
    injection h with h1
    subst h1
    cases hx
  | case2 h l rest hrange ih =>
    intro m hm x hx
    rw [unarmor_cons2, if_pos hrange] at hm
    cases hr : unarmor rest with
    | none => rw [hr] at hm; cases hm
    | some m0 =>
      rw [hr] at hm
      simp only [Option.map] at hm
      injection hm with h1
      subst h1
      rcases List.mem_cons.mp hx with h | h
      · omega
      · exact ih m0 hr x h
  | case3 h l rest hrange =>
    intro m hm
    rw [unarmor_cons2, if_neg hrange] at hm
    cases hm
  | case4 t hne hncc =>
    intro m hm
    exfalso
    cases t with
    | nil => exact hne rfl
    | cons c t2 =>
      cases t2 with
      | nil =>
        rw [show unarmor [c] = Option.none from rfl] at hm
        cases hm
      | cons d t3 => exact hncc c d t3 rfl

theorem splitAtFirst_cons (sep c : Nat) (rest : Bytes) :
    splitAtFirst sep (c :: rest) =
      if c = sep then some ([], rest)
      else (splitAtFirst sep rest).map (fun p => (c :: p.1, p.2)) := rfl

theorem splitAtFirst_append (sep : Nat) (A T : Bytes) (hA : sep ∉ A) :
    splitAtFirst sep (A ++ sep :: T) = some (A, T) := by
  induction A with
  | nil => simp [splitAtFirst_cons]
  | cons a t ih =>
    have ha : a ≠ sep := by intro h; exact hA (by simp [h])
    rw [List.cons_append, splitAtFirst_cons, if_neg ha, ih (fun h => hA (by simp [h]))]
    rfl

theorem sep_decomp_unique (sep : Nat) : ∀ (A A' T T' : Bytes), sep ∉ A → sep ∉ A' →
    A ++ sep :: T = A' ++ sep :: T' → A = A' ∧ T = T' := by
  intro A
  induction A with
  | nil =>
    intro A' T T' _ hA' he
    cases A' with
    | nil => simpa using he
    | cons b t' =>
      exfalso
      simp only [List.nil_append, List.cons_append] at he
      injection he with h1 h2
      exact hA' (by simp [h1])
  | cons a t ih =>
    intro A' T T' hA hA' he
    cases A' with
    | nil =>
      exfalso
      simp only [List.cons_append, List.nil_append] at he
      injection he with h1 h2
      exact hA (by simp [h1])
    | cons b t' =>
      simp only [List.cons_append] at he
      injection he with h1 h2
      obtain ⟨e1, e2⟩ := ih t' T T' (fun h => hA (by simp [h])) (fun h => hA' (by simp [h])) h2
      exact ⟨by rw [h1, e1], e2⟩

theorem armorBody_no_sep (m : Bytes) (hm : Ok256 m) : (46:Nat) ∉ armorBody m := by
  intro h
  have := armorBody_range m hm 46 h
  omega

theorem tagArmor_no_sep (key m : Bytes) : (46:Nat) ∉ tagArmor key m := by
  intro h
  have := armorDigits_range (tagFuel key m) (fernetTag key m) 46 h
  omega

theorem fernetDecrypt_encrypt (key m : Bytes) (hm : Ok256 m) :
    fernetDecrypt key (fernetEncrypt key m) = some m := by
  unfold fernetDecrypt
  rw [show fernetEncrypt key m = armorBody m ++ 46 :: tagArmor key m from rfl,
    splitAtFirst_append 46 _ _ (armorBody_no_sep m hm)]
  simp only [unarmor_armorBody m hm]
  rw [if_pos (show armorBody m ++ 46 :: tagArmor key m = fernetEncrypt key m from rfl)]

theorem fernetDecrypt_wrong_key (key key' m : Bytes) (hk : Ok256 key) (hk' : Ok256 key')
    (hm : Ok256 m) (hne : key' ≠ key) :
    fernetDecrypt key' (fernetEncrypt key m) = Option.none := by
  unfold fernetDecrypt
  rw [show fernetEncrypt key m = armorBody m ++ 46 :: tagArmor key m from rfl,
    splitAtFirst_append 46 _ _ (armorBody_no_sep m hm)]
  simp only [unarmor_armorBody m hm]
  rw [if_neg ?hne2]
  case hne2 =>
    intro he
    rw [show fernetEncrypt key' m = armorBody m ++ 46 :: tagArmor key' m from rfl] at he
    have h2 : tagArmor key m = tagArmor key' m := by
      have := List.append_cancel_left he
      injection this
    have h3 : fernetTag key m = fernetTag key' m := by
      have e1 := armorVal_tagArmor key m hk hm
      have e2 := armorVal_tagArmor key' m hk' hm
      rw [← e1, ← e2, h2]
    have h4 := (Nat.pair_eq_pair.mp h3).1
    exact hne (encBytes_inj key' key hk' hk h4.symm)

theorem fernetDecrypt_step (key tok A T : Bytes) (h : splitAtFirst 46 tok = some (A, T)) :
    fernetDecrypt key tok =
      match unarmor A with
      | Option.none => Option.none
      | some m => if tok = fernetEncrypt key m then some m else Option.none := by
  unfold fernetDecrypt
  rw [h]

theorem fernetDecrypt_canon (key tok : Bytes) : ∀ m, fernetDecrypt key tok = some m →
    tok = fernetEncrypt key m ∧ Ok256 m := by
  intro m h
  cases hs : splitAtFirst 46 tok with
  | none =>
    unfold fernetDecrypt at h
    rw [hs] at h
    simp at h
  | some p =>
    obtain ⟨A, T⟩ := p
    rw [fernetDecrypt_step key tok A T hs] at h
    cases hu : unarmor A with
    | none =>
      rw [hu] at h
      cases h
    | some m0 =>
      rw [hu] at h
      have h2 : (if tok = fernetEncrypt key m0 then some m0 else Option.none) = some m := h
      by_cases he : tok = fernetEncrypt key m0
      · rw [if_pos he] at h2
        injection h2 with h1
        subst h1
        exact ⟨he, unarmor_ok256 A _ hu⟩
      · rw [if_neg he] at h2
        cases h2

theorem set_ne_encrypt (k m m' : Bytes) (hk : Ok256 k) (hm : Ok256 m) (hm' : Ok256 m')
    (i b : Nat) (hi : i < (fernetEncrypt k m).length)
    (hb : b ≠ (fernetEncrypt k m).get ⟨i, hi⟩) :
    (fernetEncrypt k m).set i b ≠ fernetEncrypt k m' := by
  intro he
  have hAno : (46:Nat) ∉ armorBody m := armorBody_no_sep m hm
  have hA'no : (46:Nat) ∉ armorBody m' := armorBody_no_sep m' hm'
  have hTno : (46:Nat) ∉ tagArmor k m := tagArmor_no_sep k m
  have hT'no : (46:Nat) ∉ tagArmor k m' := tagArmor_no_sep k m'
  have hlen : (fernetEncrypt k m).length
      = (armorBody m).length + 1 + (tagArmor k m).length := by
    simp only [fernetEncrypt, List.length_append, List.length_cons]
    omega
  rw [show fernetEncrypt k m' = armorBody m' ++ 46 :: tagArmor k m' from rfl] at he
  rcases Nat.lt_trichotomy i (armorBody m).length with hlt | hieq | hgt
  · -- the altered byte is inside the body armor
    have e1 : (fernetEncrypt k m).set i b
        = (armorBody m).set i b ++ 46 :: tagArmor k m := by
      rw [show fernetEncrypt k m = armorBody m ++ 46 :: tagArmor k m from rfl]
      exact List.set_append_left _ _ hlt
    have hgeteq : (fernetEncrypt k m).get ⟨i, hi⟩ = (armorBody m).get ⟨i, hlt⟩ :=
      List.get_append i hlt
    rw [e1] at he
    by_cases hb46 : b = 46
    · subst hb46
      have e2 : (armorBody m).set i 46
          = (armorBody m).take i ++ 46 :: (armorBody m).drop (i+1) :=
        List.set_eq_take_cons_drop 46 hlt
      rw [e2, List.append_assoc, List.cons_append] at he
      have htake : (46:Nat) ∉ (armorBody m).take i :=
        fun hmem => hAno (List.take_subset _ _ hmem)
      obtain ⟨eA, eT⟩ := sep_decomp_unique 46 _ _ _ _ htake hA'no he
      exact hT'no (by rw [← eT]; simp)
    · have h46 : (46:Nat) ∉ (armorBody m).set i b := by
        intro hmem
        rcases List.mem_or_eq_of_mem_set hmem with h | h
        · exact hAno h
        · exact hb46 h.symm
      obtain ⟨eA, eT⟩ := sep_decomp_unique 46 _ _ _ _ h46 hA'no he
      have hmm : m = m' := by
        have htag : fernetTag k m = fernetTag k m' := by
          rw [← armorVal_tagArmor k m hk hm, ← armorVal_tagArmor k m' hk hm', eT]
        exact encBytes_inj m m' hm hm' (Nat.pair_eq_pair.mp htag).2
      subst hmm
      have hq1 : ((armorBody m).set i b).get? i = some b := List.get?_set_eq_of_lt b hlt
      rw [eA] at hq1
      have hq2 := List.get?_eq_get hlt
      rw [hq1] at hq2
      injection hq2 with hq3
      exact hb (by rw [hgeteq, ← hq3])
  · -- the altered byte is the separator
    have hq : (fernetEncrypt k m).get? i = some 46 := by
      rw [show fernetEncrypt k m = armorBody m ++ 46 :: tagArmor k m from rfl,
        List.get?_append_right (le_of_eq hieq.symm), hieq, Nat.sub_self]
      rfl
    have hget46 : (fernetEncrypt k m).get ⟨i, hi⟩ = 46 := by
      have hq2 := List.get?_eq_get hi
      rw [hq] at hq2
      injection hq2 with h3
      exact h3.symm
    have hbne : b ≠ 46 := fun hc => hb (by rw [hget46, hc])
    have e1 : (fernetEncrypt k m).set i b = armorBody m ++ b :: tagArmor k m := by
      rw [show fernetEncrypt k m = armorBody m ++ 46 :: tagArmor k m from rfl,
        List.set_append_right _ _ (le_of_eq hieq.symm), hieq, Nat.sub_self]
      rfl
    rw [e1] at he
    have h46mem : (46:Nat) ∈ armorBody m' ++ 46 :: tagArmor k m' := by simp
    rw [← he] at h46mem
    rcases List.mem_append.mp h46mem with h | h
    · exact hAno h
    · rcases List.mem_cons.mp h with h | h
      · exact hbne h.symm
      · exact hTno h
  · -- the altered byte is inside the tag armor
    obtain ⟨j, rfl⟩ : ∃ j, i = (armorBody m).length + 1 + j :=
      ⟨i - (armorBody m).length - 1, by omega⟩
    have hj : j < (tagArmor k m).length := by omega
    have hsub : (armorBody m).length + 1 + j - (armorBody m).length = j + 1 := by omega
    have e1 : (fernetEncrypt k m).set ((armorBody m).length + 1 + j) b
        = armorBody m ++ 46 :: (tagArmor k m).set j b := by
      rw [show fernetEncrypt k m = armorBody m ++ 46 :: tagArmor k m from rfl,
        List.set_append_right _ _ (by omega), hsub]
      rfl
    rw [e1] at he
    by_cases hb46 : b = 46
    · obtain ⟨eA, eT⟩ := sep_decomp_unique 46 _ _ _ _ hAno hA'no he
      subst hb46
      exact hT'no (by rw [← eT]; exact List.mem_set _ _ hj 46)
    · obtain ⟨eA, eT⟩ := sep_decomp_unique 46 _ _ _ _ hAno hA'no he
      have hmm : m = m' := armorBody_inj m m' hm hm' eA
      subst hmm
      have hq1 : ((tagArmor k m).set j b).get? j = some b := List.get?_set_eq_of_lt b hj
      have hq1' : (tagArmor k m).get? j = some b :=
        (congrArg (fun l => List.get? l j) eT).symm.trans hq1
      have hq2 := hq1'.symm.trans (List.get?_eq_get hj)
      injection hq2 with hq3
      have hq : (fernetEncrypt k m).get? ((armorBody m).length + 1 + j)
          = some ((tagArmor k m).get ⟨j, hj⟩) := by
        rw [show fernetEncrypt k m = armorBody m ++ 46 :: tagArmor k m from rfl,
          List.get?_append_right (by omega), hsub,
          show ((46:Nat) :: tagArmor k m).get? (j + 1) = (tagArmor k m).get? j from rfl,
          List.get?_eq_get hj]
      have hq2' := List.get?_eq_get hi
      rw [hq] at hq2'
      injection hq2' with h3
      exact hb (hq3.trans h3)

theorem fernetDecrypt_set (k m : Bytes) (hk : Ok256 k) (hm : Ok256 m)
    (i b : Nat) (hi : i < (fernetEncrypt k m).length)
    (hb : b ≠ (fernetEncrypt k m).get ⟨i, hi⟩) :
    fernetDecrypt k ((fernetEncrypt k m).set i b) = Option.none := by
  cases hd : fernetDecrypt k ((fernetEncrypt k m).set i b) with
  | none => rfl
  | some m2 =>
    obtain ⟨he, hm2⟩ := fernetDecrypt_canon k _ m2 hd
    exact absurd he (set_ne_encrypt k m m2 hk hm hm2 i b hi hb)

/-! ### Percent-coding lemmas -/

theorem unquoteF_succ (fuel : Nat) (c : Nat) (rest : Bytes) :
    unquoteF (fuel + 1) (c :: rest) =
      if c = 37 then
        match rest with
        | a :: b :: rest2 =>
          if isHexDigit a && isHexDigit b then
            (hexVal a * 16 + hexVal b) :: unquoteF fuel rest2
          else 37 :: unquoteF fuel rest
        | _ => 37 :: unquoteF fuel rest
      else c :: unquoteF fuel rest := rfl

theorem safeQ_tail (c : Nat) (rest : Bytes) (h : SafeQ (c :: rest)) : SafeQ rest := by
  intro p a b h1 h2 h3
  exact h (p + 1) a b (by simpa using h1) (by simpa using h2) (by simpa using h3)

theorem unquoteF_id (fuel : Nat) : ∀ l, SafeQ l → unquoteF fuel l = l := by
  induction fuel with
  | zero => intro l _; rfl
  | succ f ih =>
    intro l hl
    cases l with
    | nil => rfl
    | cons c rest =>
      rw [unquoteF_succ]
      by_cases hc : c = 37
      · subst hc
        rw [if_pos rfl]
        cases rest with
        | nil => rw [ih [] (fun p a b h1 => by cases h1)]
        | cons a rest1 =>
          cases rest1 with
          | nil =>
            rw [ih [a] (safeQ_tail _ _ hl)]
          | cons b rest2 =>
            have hguard : ¬(isHexDigit a && isHexDigit b) = true := by
              rcases hl 0 a b rfl rfl rfl with h | h <;> simp [h]
            show (if isHexDigit a && isHexDigit b then
                (hexVal a * 16 + hexVal b) :: unquoteF f rest2
              else 37 :: unquoteF f (a :: b :: rest2)) = 37 :: a :: b :: rest2
            rw [if_neg hguard, ih _ (safeQ_tail _ _ hl)]
      · rw [if_neg hc, ih rest (safeQ_tail _ _ hl)]

theorem unquote_id (l : Bytes) (h : SafeQ l) : unquote l = l := unquoteF_id _ l h

theorem tokOK_not_hex (a : Nat) (h : a = 46 ∨ (71 ≤ a ∧ a ≤ 86)) :
    isHexDigit a = false := by
  simp only [isHexDigit, Bool.or_eq_false_iff, Bool.and_eq_false_iff,
    decide_eq_false_iff_not, not_le]
  omega

theorem tokOK_safeQ (l : Bytes) (h : TokOK l) : SafeQ l := by
  intro p a b h1 _ _
  have h37 := h 37 (List.get?_mem h1)
  omega

theorem set_safeQ (tok : Bytes) (i b : Nat) (htok : TokOK tok) : SafeQ (tok.set i b) := by
  intro p a c h37 ha _
  by_cases hpi : p = i
  · subst hpi
    have ha' : tok.get? (p + 1) = some a :=
      (List.get?_set_ne b tok (show p ≠ p + 1 by omega)).symm.trans ha
    exact Or.inl (tokOK_not_hex a (htok a (List.get?_mem ha')))
  · have h37' : tok.get? p = some 37 :=
      (List.get?_set_ne b tok (Ne.symm hpi)).symm.trans h37
    have := htok 37 (List.get?_mem h37')
    omega

theorem unquote_encrypt (key m : Bytes) (hm : Ok256 m) :
    unquote (fernetEncrypt key m) = fernetEncrypt key m :=
  unquote_id _ (tokOK_safeQ _ (fernetEncrypt_tokOK key m hm))

theorem unquote_encrypt_set (key m : Bytes) (hm : Ok256 m) (i b : Nat) :
    unquote ((fernetEncrypt key m).set i b) = (fernetEncrypt key m).set i b :=
  unquote_id _ (set_safeQ _ i b (fernetEncrypt_tokOK key m hm))

theorem urlQuote_id (l : Bytes) (h : ∀ x ∈ l, safeByte x = true) : urlQuote l = l := by
  induction l with
  | nil => rfl
  | cons a t ih =>
    have ha : safeByte a = true := h a (by simp)
    show (if safeByte a then [a] else [37, hexUpper (a / 16 % 16), hexUpper (a % 16)])
        ++ urlQuote t = a :: t
    rw [if_pos ha, ih (fun x hx => h x (by simp [hx]))]
    rfl

theorem tokOK_safe (l : Bytes) (h : TokOK l) : ∀ x ∈ l, safeByte x = true := by
  intro x hx
  rcases h x hx with h1 | h1 <;>
    · simp only [safeByte, Bool.or_eq_true, Bool.and_eq_true, decide_eq_true_eq]
      omega

theorem urlQuote_encrypt (key m : Bytes) (hm : Ok256 m) :
    urlQuote (fernetEncrypt key m) = fernetEncrypt key m :=
  urlQuote_id _ (tokOK_safe _ (fernetEncrypt_tokOK key m hm))

/-! ### JSON / literal-dict parsing lemmas -/

theorem parseKV_enc (q : Nat) (k v R : Bytes) (hk : q ∉ k) (hv : q ∉ v) :
    parseKV q (q :: (k ++ q :: (58 :: 32 :: q :: (v ++ q :: R)))) = some (k, v, R) := by
  unfold parseKV
  simp [splitAtFirst_append q k _ hk, splitAtFirst_append q v _ hv]

theorem parseMembersQ_succ (q f : Nat) (l : Bytes) :
    parseMembersQ q (f + 1) l =
      match parseKV q l with
      | Option.none => Option.none
      | some (key, v, r3) =>
        match r3 with
        | 44 :: 32 :: more => (parseMembersQ q f more).map (fun ms => (key, v) :: ms)
        | [125] => some [(key, v)]
        | _ => Option.none := rfl

theorem encMembersQ_cons_eq (q : Nat) (k v : Bytes) (rest : List (Bytes × Bytes)) :
    encMembersQ q ((k, v) :: rest) ++ [125]
      = q :: (k ++ q :: (58 :: 32 :: q :: (v ++ q ::
          ((if rest.isEmpty then [] else [44, 32]) ++ (encMembersQ q rest ++ [125]))))) := by
  simp [encMembersQ, List.append_assoc]

theorem parseMembersQ_enc (q : Nat) : ∀ (obj : List (Bytes × Bytes)) (fuel : Nat),
    obj ≠ [] → obj.length ≤ fuel → (∀ kv ∈ obj, q ∉ kv.1 ∧ q ∉ kv.2) →
    parseMembersQ q fuel (encMembersQ q obj ++ [125]) = some obj := by
  intro obj
  induction obj with
  | nil => intro fuel h _ _; exact absurd rfl h
  | cons kv rest ih =>
    intro fuel _ hlen hmem
    obtain ⟨k, v⟩ := kv
    cases fuel with
    | zero => simp at hlen
    | succ f =>
      have hk : q ∉ k := (hmem (k, v) (by simp)).1
      have hv : q ∉ v := (hmem (k, v) (by simp)).2
      rw [encMembersQ_cons_eq, parseMembersQ_succ, parseKV_enc q k v _ hk hv]
      by_cases hrest : rest = []
      · subst hrest
        simp [encMembersQ]
      · have hR : (if rest.isEmpty then ([] : Bytes) else [44, 32])
            ++ (encMembersQ q rest ++ [125])
            = 44 :: 32 :: (encMembersQ q rest ++ [125]) := by
          rw [if_neg (by simpa [List.isEmpty_iff] using hrest)]
          rfl
        rw [hR]
        show (parseMembersQ q f (encMembersQ q rest ++ [125])).map (fun ms => (k, v) :: ms)
            = some ((k, v) :: rest)
        rw [ih f hrest (by simp at hlen; omega) (fun kv hkv => hmem kv (by simp [hkv]))]
        rfl

theorem encMembersQ_length (q : Nat) : ∀ obj : List (Bytes × Bytes),
    obj.length ≤ (encMembersQ q obj).length := by
  intro obj
  induction obj with
  | nil => simp
  | cons kv rest ih =>
    obtain ⟨k, v⟩ := kv
    simp only [encMembersQ, List.length_append, List.length_cons, List.length_nil]
    split_ifs <;> simp only [List.length_nil, List.length_cons] <;> omega

theorem jsonLoads_brace (rest : Bytes) :
    jsonLoads (123 :: rest) =
      if rest = [125] then some []
      else (parseMembersQ 34 rest.length rest).map
        (List.map (fun kv => (kv.1, PyValue.str kv.2))) := rfl

theorem literalEvalDict_brace (rest : Bytes) :
    literalEvalDict (123 :: rest) =
      if rest = [125] then some []
      else parseMembersQ 39 rest.length rest := rfl

theorem jsonLoads_dumps (obj : List (Bytes × Bytes)) (hne : obj ≠ [])
    (hmem : ∀ kv ∈ obj, (34:Nat) ∉ kv.1 ∧ (34:Nat) ∉ kv.2) :
    jsonLoads (jsonDumps obj) = some (obj.map (fun kv => (kv.1, PyValue.str kv.2))) := by
  have hshape : jsonDumps obj = 123 :: (encMembersQ 34 obj ++ [125]) := by
    simp [jsonDumps]
  rw [hshape, jsonLoads_brace, if_neg ?hne125]
  case hne125 =>
    intro hcontra
    have hlen := congrArg List.length hcontra
    simp only [List.length_append, List.length_cons, List.length_nil] at hlen
    have h2 := encMembersQ_length 34 obj
    have h3 : 0 < obj.length := List.length_pos.mpr hne
    omega
  rw [parseMembersQ_enc 34 obj _ hne ?hfuel hmem]
  · rfl
  case hfuel =>
    have := encMembersQ_length 34 obj
    simp only [List.length_append, List.length_cons, List.length_nil]
    omega

theorem ok256_nil : Ok256 [] := fun x hx => absurd hx (List.not_mem_nil x)

theorem ok256_cons {a : Nat} {l : Bytes} (ha : a < 256) (hl : Ok256 l) :
    Ok256 (a :: l) := by
  intro x hx
  rcases List.mem_cons.mp hx with h | h
  · omega
  · exact hl x h

theorem ok256_append {a b : Bytes} (ha : Ok256 a) (hb : Ok256 b) : Ok256 (a ++ b) := by
  intro x hx
  rcases List.mem_append.mp hx with h | h
  · exact ha x h
  · exact hb x h

theorem encMembersQ_ok256 (q : Nat) (hq : q < 256) : ∀ obj : List (Bytes × Bytes),
    (∀ kv ∈ obj, Ok256 kv.1 ∧ Ok256 kv.2) → Ok256 (encMembersQ q obj) := by
  intro obj
  induction obj with
  | nil => intro _; exact ok256_nil
  | cons kv rest ih =>
    obtain ⟨k, v⟩ := kv
    intro h
    have hsep : Ok256 (if rest.isEmpty then ([] : Bytes) else [44, 32]) := by
      split
      · exact ok256_nil
      · exact ok256_cons (by omega) (ok256_cons (by omega) ok256_nil)
    have h58 : (58:Nat) < 256 := by omega
    have h32 : (32:Nat) < 256 := by omega
    exact ok256_append
      (ok256_append
        (ok256_append
          (ok256_append
            (ok256_append
              (ok256_append (ok256_cons hq ok256_nil) (h (k, v) (by simp)).1)
              (ok256_cons hq (ok256_cons h58 (ok256_cons h32
                (ok256_cons hq ok256_nil)))))
            (h (k, v) (by simp)).2)
          (ok256_cons hq ok256_nil))
        hsep)
      (ih (fun kv hkv => h kv (by simp [hkv])))

theorem jsonDumps_ok256 (obj : List (Bytes × Bytes))
    (h : ∀ kv ∈ obj, Ok256 kv.1 ∧ Ok256 kv.2) : Ok256 (jsonDumps obj) := by
  have h123 : (123:Nat) < 256 := by omega
  have h125 : (125:Nat) < 256 := by omega
  exact ok256_append
    (ok256_append (ok256_cons h123 ok256_nil) (encMembersQ_ok256 34 (by omega) obj h))
    (ok256_cons h125 ok256_nil)

/-! ## Theorems for the claims -/

/-- C1: `verify_payload` returns `(False, '')` and issues no HTTP request
whenever the payload timestamp is more than one minute in the past or the
future of the local clock, and issues the `/api/user/validate` POST
whenever the timestamp is within the one-minute window. -/
theorem verify_payload_freshness_window (g : BrownieGate)
    (p : List (Bytes × PyValue)) (now : Int) (resp : HttpResponse) (t : Int)
    (h : fromisoformat (dictGet p (strB "timestamp")) = .ok t) :
    ((t > now + 60 ∨ t < now - 60) →
      verify_payload g p now resp = ⟨[], [], .ok (false, .str [])⟩)
    ∧ (now - 60 ≤ t → t ≤ now + 60 →
      (verify_payload g p now resp).requests =
        [⟨g.base_url ++ strB "/api/user/validate", baseHeaders g,
          [(strB "code", dictGet p (strB "code"))]⟩]) := by
  constructor
  · rintro (hgt | hlt) <;>
    · simp only [verify_payload, h]
      split_ifs with hif1 hif2 <;> first | rfl | omega
  · intro h1 h2
    simp only [verify_payload, h]
    split_ifs with hif1 hif2 <;> first | rfl | omega

/-- C1 witness: a timestamp 61 seconds ahead of the clock is rejected with
no request; one 59 seconds ahead reaches the remote call. -/
theorem verify_payload_freshness_window_witness :
    (verify_payload gEx [(strB "timestamp", PyValue.str (strB "2024-06-01T12:00:00"))]
        ((63852840000 : Int) - 61) ⟨200, []⟩ = ⟨[], [], .ok (false, .str [])⟩)
    ∧ ((verify_payload gEx [(strB "timestamp", PyValue.str (strB "2024-06-01T12:00:00"))]
        ((63852840000 : Int) - 59) ⟨200, []⟩).requests =
        [⟨gEx.base_url ++ strB "/api/user/validate", baseHeaders gEx,
          [(strB "code",
            dictGet [(strB "timestamp", PyValue.str (strB "2024-06-01T12:00:00"))] (strB "code"))]⟩]) :=
  ⟨(verify_payload_freshness_window gEx
      [(strB "timestamp", PyValue.str (strB "2024-06-01T12:00:00"))]
      ((63852840000 : Int) - 61) ⟨200, []⟩ 63852840000 rfl).1 (Or.inl (by omega)),
   (verify_payload_freshness_window gEx
      [(strB "timestamp", PyValue.str (strB "2024-06-01T12:00:00"))]
      ((63852840000 : Int) - 59) ⟨200, []⟩ 63852840000 rfl).2 (by omega) (by omega)⟩

/-- C2: on a non-200 response every remote-calling method raises the
communication error rather than returning any success value. -/
theorem non200_communicationError (g : BrownieGate) (resp : HttpResponse)
    (hs : resp.status ≠ 200) (p : List (Bytes × PyValue)) (now t : Int)
    (ht : fromisoformat (dictGet p (strB "timestamp")) = .ok t)
    (h1 : now - 60 ≤ t) (h2 : t ≤ now + 60) (uid ckh : Bytes) :
    (verify_payload g p now resp).result = .error .communicationError
    ∧ (get_user_data g uid resp).result = .error .communicationError
    ∧ (generate_cookie g uid resp).result = .error .communicationError
    ∧ (validate_cookie g uid ckh resp).result = .error .communicationError
    ∧ (remove_cookie g uid resp).result = .error .communicationError
    ∧ (get_pfp g uid resp).result = .error .communicationError := by
  refine ⟨?_, ?_, ?_, ?_, ?_, ?_⟩ <;>
    simp only [verify_payload, get_user_data, generate_cookie, validate_cookie,
      remove_cookie, get_pfp, ht] <;>
    split_ifs <;> first | rfl | omega | exact absurd (by assumption) hs

/-- C2 witness: a 500 response makes all six methods raise. -/
theorem non200_communicationError_witness :
    ((verify_payload gEx [(strB "timestamp", PyValue.str (strB "2024-06-01T12:00:00"))]
        (63852840000 : Int) ⟨500, []⟩).result = .error .communicationError)
    ∧ ((get_user_data gEx (strB "u") ⟨500, []⟩).result = .error .communicationError)
    ∧ ((generate_cookie gEx (strB "u") ⟨500, []⟩).result = .error .communicationError)
    ∧ ((validate_cookie gEx (strB "u") (strB "h") ⟨500, []⟩).result = .error .communicationError)
    ∧ ((remove_cookie gEx (strB "u") ⟨500, []⟩).result = .error .communicationError)
    ∧ ((get_pfp gEx (strB "u") ⟨500, []⟩).result = .error .communicationError) :=
  non200_communicationError gEx ⟨500, []⟩ (by decide)
    [(strB "timestamp", PyValue.str (strB "2024-06-01T12:00:00"))]
    63852840000 63852840000 rfl (by omega) (by omega) (strB "u") (strB "h")

/-- C3: `decrypt_payload` fails with the decryption error whenever any
byte of the encrypted payload has been altered after encryption, or the
decrypting key differs from the encrypting key, or the decrypted text is
not valid JSON; it never returns corrupted fields. -/
theorem decrypt_payload_rejects (g : BrownieGate) (hg : Ok256 g.encryption_key) :
    (∀ (m : Bytes), Ok256 m →
      ∀ (i b : Nat) (hi : i < (fernetEncrypt g.encryption_key m).length),
      b ≠ (fernetEncrypt g.encryption_key m).get ⟨i, hi⟩ →
      decrypt_payload g ((fernetEncrypt g.encryption_key m).set i b)
        = .error .decryptionError)
    ∧ (∀ (k m : Bytes), Ok256 k → Ok256 m → k ≠ g.encryption_key →
      decrypt_payload g (fernetEncrypt k m) = .error .decryptionError)
    ∧ (∀ (pt : Bytes), Ok256 pt → jsonLoads pt = Option.none →
      decrypt_payload g (fernetEncrypt g.encryption_key pt) = .error .decryptionError) := by
  refine ⟨?_, ?_, ?_⟩
  · intro m hm i b hi hb
    simp only [decrypt_payload, unquote_encrypt_set g.encryption_key m hm i b,
      fernetDecrypt_set g.encryption_key m hg hm i b hi hb]
  · intro k m hk hm hne
    simp only [decrypt_payload, unquote_encrypt k m hm,
      fernetDecrypt_wrong_key k g.encryption_key m hk hg hm (Ne.symm hne)]
  · intro pt hpt hjson
    simp only [decrypt_payload, unquote_encrypt g.encryption_key pt hpt,
      fernetDecrypt_encrypt g.encryption_key pt hpt, hjson]

/-- C3 witness: a flipped token byte, a foreign key, and a non-JSON
plaintext each produce the decryption error on concrete data. -/
theorem decrypt_payload_rejects_witness :
    (decrypt_payload gEx ((fernetEncrypt gEx.encryption_key (strB "msg")).set 0 200)
      = .error .decryptionError)
    ∧ (decrypt_payload gEx (fernetEncrypt (strB "wrong") (strB "msg"))
      = .error .decryptionError)
    ∧ (decrypt_payload gEx (fernetEncrypt gEx.encryption_key (strB "notjson"))
      = .error .decryptionError) :=
  ⟨(decrypt_payload_rejects gEx (by decide)).1 (strB "msg") (by decide) 0 200
      (by decide) (by decide),
   (decrypt_payload_rejects gEx (by decide)).2.1 (strB "wrong") (strB "msg")
      (by decide) (by decide) (by decide),
   (decrypt_payload_rejects gEx (by decide)).2.2 (strB "notjson") (by decide) rfl⟩

/-- C4: Fernet-encrypting the JSON encoding of a `{code, timestamp}`
mapping with the client key — with or without URL-encoding the token —
and calling `decrypt_payload` with the same key returns exactly the
original mapping. -/
theorem payload_roundtrip (g : BrownieGate) (c t : Bytes) (hg : Ok256 g.encryption_key)
    (hc : Ok256 c) (ht : Ok256 t) (hc34 : (34:Nat) ∉ c) (ht34 : (34:Nat) ∉ t) :
    decrypt_payload g (fernetEncrypt g.encryption_key
        (jsonDumps [(strB "code", c), (strB "timestamp", t)]))
      = .ok [(strB "code", .str c), (strB "timestamp", .str t)]
    ∧ decrypt_payload g (urlQuote (fernetEncrypt g.encryption_key
        (jsonDumps [(strB "code", c), (strB "timestamp", t)])))
      = .ok [(strB "code", .str c), (strB "timestamp", .str t)] := by
  have hobj : ∀ kv ∈ [(strB "code", c), (strB "timestamp", t)], Ok256 kv.1 ∧ Ok256 kv.2 := by
    intro kv hkv
    simp only [List.mem_cons, List.not_mem_nil, or_false] at hkv
    rcases hkv with h | h <;> subst h
    · exact ⟨show Ok256 (strB "code") by decide, hc⟩
    · exact ⟨show Ok256 (strB "timestamp") by decide, ht⟩
  have hptOk : Ok256 (jsonDumps [(strB "code", c), (strB "timestamp", t)]) :=
    jsonDumps_ok256 _ hobj
  have hjson : jsonLoads (jsonDumps [(strB "code", c), (strB "timestamp", t)])
      = some [(strB "code", .str c), (strB "timestamp", .str t)] := by
    rw [jsonLoads_dumps _ (by simp) ?hm34]
    · rfl
    case hm34 =>
      intro kv hkv
      simp only [List.mem_cons, List.not_mem_nil, or_false] at hkv
      rcases hkv with h | h <;> subst h
      · exact ⟨show (34:Nat) ∉ strB "code" by decide, hc34⟩
      · exact ⟨show (34:Nat) ∉ strB "timestamp" by decide, ht34⟩
  constructor
  · simp only [decrypt_payload, unquote_encrypt _ _ hptOk,
      fernetDecrypt_encrypt _ _ hptOk, hjson]
  · simp only [decrypt_payload, urlQuote_encrypt _ _ hptOk, unquote_encrypt _ _ hptOk,
      fernetDecrypt_encrypt _ _ hptOk, hjson]

/-- C4 witness at a concrete code and timestamp. -/
theorem payload_roundtrip_witness :
    decrypt_payload gEx (fernetEncrypt gEx.encryption_key
        (jsonDumps [(strB "code", strB "X"), (strB "timestamp", strB "2024-06-01T12:00:00")]))
      = .ok [(strB "code", .str (strB "X")),
             (strB "timestamp", .str (strB "2024-06-01T12:00:00"))]
    ∧ decrypt_payload gEx (urlQuote (fernetEncrypt gEx.encryption_key
        (jsonDumps [(strB "code", strB "X"), (strB "timestamp", strB "2024-06-01T12:00:00")])))
      = .ok [(strB "code", .str (strB "X")),
             (strB "timestamp", .str (strB "2024-06-01T12:00:00"))] :=
  payload_roundtrip gEx (strB "X") (strB "2024-06-01T12:00:00")
    (by decide) (by decide) (by decide) (by decide) (by decide)

/-- C5: server-side rejection on HTTP 200 (`validated`/`success` false)
maps to the documented plain values and never to an exception. -/
theorem rejection_values_no_exception (g : BrownieGate) (resp : HttpResponse)
    (hs : resp.status = 200) (p : List (Bytes × PyValue)) (now t : Int)
    (ht : fromisoformat (dictGet p (strB "timestamp")) = .ok t)
    (h1 : now - 60 ≤ t) (h2 : t ≤ now + 60) (uid ckh : Bytes)
    (hv : dictGet resp.body (strB "validated") = .bool false)
    (hsu : dictGet resp.body (strB "success") = .bool false) :
    (verify_payload g p now resp).result = .ok (false, .str [])
    ∧ (generate_cookie g uid resp).result = .ok Option.none
    ∧ (validate_cookie g uid ckh resp).result = .ok false
    ∧ (get_pfp g uid resp).result = .ok (.bool false) := by
  refine ⟨?_, ?_, ?_, ?_⟩ <;>
    simp only [verify_payload, generate_cookie, validate_cookie, get_pfp, ht] <;>
    split_ifs with hif1 hif2 <;>
      simp_all [PyValue.truthy] <;> omega

/-- C5 witness. -/
theorem rejection_values_no_exception_witness :
    ((verify_payload gEx [(strB "timestamp", PyValue.str (strB "2024-06-01T12:00:00"))]
        (63852840000 : Int)
        ⟨200, [(strB "validated", .bool false), (strB "success", .bool false)]⟩).result
      = .ok (false, .str []))
    ∧ ((generate_cookie gEx (strB "u")
        ⟨200, [(strB "validated", .bool false), (strB "success", .bool false)]⟩).result
      = .ok Option.none)
    ∧ ((validate_cookie gEx (strB "u") (strB "h")
        ⟨200, [(strB "validated", .bool false), (strB "success", .bool false)]⟩).result
      = .ok false)
    ∧ ((get_pfp gEx (strB "u")
        ⟨200, [(strB "validated", .bool false), (strB "success", .bool false)]⟩).result
      = .ok (.bool false)) :=
  rejection_values_no_exception gEx
    ⟨200, [(strB "validated", .bool false), (strB "success", .bool false)]⟩ rfl
    [(strB "timestamp", PyValue.str (strB "2024-06-01T12:00:00"))]
    63852840000 63852840000 rfl (by omega) (by omega) (strB "u") (strB "h") rfl rfl

/-- C6 counterexample: on `validated == False` the second component of
`get_user_data`'s return value is the empty string `''`, not an empty
mapping as the claim states. -/
theorem get_user_data_empty_mapping_cex :
    (get_user_data gEx (strB "u") ⟨200, [(strB "validated", .bool false)]⟩).result
      ≠ .ok (false, .dict []) := by
  intro hcontra
  rw [show (get_user_data gEx (strB "u") ⟨200, [(strB "validated", .bool false)]⟩).result
        = .ok (false, .str []) from rfl] at hcontra
  injection hcontra with h1
  injection h1 with h2 h3
  cases h3

/-- C6 (amended): on HTTP 200, `validated == True` yields `(True, m)` with
exactly the `validated` key removed and every other key unchanged, and
`validated == False` yields `(False, '')` where the second component is an
empty string (not an empty mapping). -/
theorem get_user_data_contract (g : BrownieGate) (uid : Bytes) (resp : HttpResponse)
    (hs : resp.status = 200) :
    ((dictGet resp.body (strB "validated") = .bool true) →
      ∃ d, (get_user_data g uid resp).result = .ok (true, .dict d)
        ∧ d.lookup (strB "validated") = Option.none
        ∧ ∀ k, k ≠ strB "validated" → d.lookup k = resp.body.lookup k)
    ∧ ((dictGet resp.body (strB "validated") = .bool false) →
      (get_user_data g uid resp).result = .ok (false, .str [])) := by
  constructor
  · intro hv
    refine ⟨resp.body.filter (fun kv => kv.1 != strB "validated"), ?_,
      lookup_filter_self _ _, fun k hk => lookup_filter_ne _ _ _ hk⟩
    simp [get_user_data, hs, hv, PyValue.truthy]
  · intro hv
    simp [get_user_data, hs, hv, PyValue.truthy]

/-- C6 witness: a response with `validated: True` and one `name` field. -/
theorem get_user_data_contract_witness :
    ((dictGet [(strB "validated", PyValue.bool true), (strB "name", PyValue.str (strB "n"))]
        (strB "validated") = .bool true) →
      ∃ d, (get_user_data gEx (strB "u")
          ⟨200, [(strB "validated", PyValue.bool true), (strB "name", PyValue.str (strB "n"))]⟩).result
          = .ok (true, .dict d)
        ∧ d.lookup (strB "validated") = Option.none
        ∧ ∀ k, k ≠ strB "validated" →
            d.lookup k = [(strB "validated", PyValue.bool true),
              (strB "name", PyValue.str (strB "n"))].lookup k)
    ∧ ((dictGet [(strB "validated", PyValue.bool true), (strB "name", PyValue.str (strB "n"))]
        (strB "validated") = .bool false) →
      (get_user_data gEx (strB "u")
          ⟨200, [(strB "validated", PyValue.bool true), (strB "name", PyValue.str (strB "n"))]⟩).result
        = .ok (false, .str [])) :=
  get_user_data_contract gEx (strB "u")
    ⟨200, [(strB "validated", PyValue.bool true), (strB "name", PyValue.str (strB "n"))]⟩ rfl

/-- C7: against a server that answers `/api/cookie/generate` with
`success: True` and a raw cookie string whose literal encodes `user_id`
and `hash`, `decrypt_cookie` applied to `generate_cookie`'s output
returns exactly that pair. -/
theorem cookie_roundtrip (g : BrownieGate) (u h s : Bytes) (resp : HttpResponse)
    (hs256 : Ok256 s) (hstat : resp.status = 200)
    (hsucc : dictGet resp.body (strB "success") = .bool true)
    (hcook : dictGet resp.body (strB "cookie") = .str s)
    (d : List (Bytes × Bytes)) (hparse : literalEvalDict s = some d)
    (hu : d.lookup (strB "user_id") = some u)
    (hh : d.lookup (strB "hash") = some h) :
    (generate_cookie g u resp).result = .ok (some (fernetEncrypt g.encryption_key s))
    ∧ decrypt_cookie g (fernetEncrypt g.encryption_key s) = .ok (.str u, .str h) := by
  constructor
  · simp [generate_cookie, hstat, hsucc, hcook, PyValue.truthy]
  · simp only [decrypt_cookie, fernetDecrypt_encrypt _ _ hs256, hparse,
      strDictGet, hu, hh]

/-- C7 witness: a mocked server issuing the dict literal
cookie for user `alice` with hash `h1`. -/
theorem cookie_roundtrip_witness :
    (generate_cookie gEx (strB "alice")
        ⟨200, [(strB "success", PyValue.bool true),
               (strB "cookie", PyValue.str ([123] ++ encMembersQ 39
                 [(strB "user_id", strB "alice"), (strB "hash", strB "h1")] ++ [125]))]⟩).result
      = .ok (some (fernetEncrypt gEx.encryption_key ([123] ++ encMembersQ 39
          [(strB "user_id", strB "alice"), (strB "hash", strB "h1")] ++ [125])))
    ∧ decrypt_cookie gEx (fernetEncrypt gEx.encryption_key ([123] ++ encMembersQ 39
          [(strB "user_id", strB "alice"), (strB "hash", strB "h1")] ++ [125]))
      = .ok (.str (strB "alice"), .str (strB "h1")) :=
  cookie_roundtrip gEx (strB "alice") (strB "h1")
    ([123] ++ encMembersQ 39 [(strB "user_id", strB "alice"), (strB "hash", strB "h1")] ++ [125])
    ⟨200, [(strB "success", PyValue.bool true),
           (strB "cookie", PyValue.str ([123] ++ encMembersQ 39
             [(strB "user_id", strB "alice"), (strB "hash", strB "h1")] ++ [125]))]⟩
    (by decide) rfl rfl rfl
    [(strB "user_id", strB "alice"), (strB "hash", strB "h1")]
    (by decide) rfl rfl

/-- C8: the `debug` flag only changes what is printed; every method's
return value and raised error are identical for any two flag values. -/
theorem debug_flag_no_effect (g : BrownieGate) (d1 d2 : Bool) (payload cookie : Bytes)
    (p : List (Bytes × PyValue)) (now : Int) (resp : HttpResponse) (uid ckh : Bytes) :
    decrypt_payload { g with debug := d1 } payload = decrypt_payload { g with debug := d2 } payload
    ∧ (verify_payload { g with debug := d1 } p now resp).result
      = (verify_payload { g with debug := d2 } p now resp).result
    ∧ (get_user_data { g with debug := d1 } uid resp).result
      = (get_user_data { g with debug := d2 } uid resp).result
    ∧ (generate_cookie { g with debug := d1 } uid resp).result
      = (generate_cookie { g with debug := d2 } uid resp).result
    ∧ decrypt_cookie { g with debug := d1 } cookie = decrypt_cookie { g with debug := d2 } cookie
    ∧ (validate_cookie { g with debug := d1 } uid ckh resp).result
      = (validate_cookie { g with debug := d2 } uid ckh resp).result
    ∧ (remove_cookie { g with debug := d1 } uid resp).result
      = (remove_cookie { g with debug := d2 } uid resp).result
    ∧ (get_pfp { g with debug := d1 } uid resp).result
      = (get_pfp { g with debug := d2 } uid resp).result := by
  refine ⟨rfl, ?_, rfl, rfl, rfl, rfl, rfl, rfl⟩
  rcases hx : fromisoformat (dictGet p (strB "timestamp")) with e | t
  · simp only [verify_payload, hx]
  · simp only [verify_payload, hx]
    split_ifs <;> rfl

/-- C9: a 200 response with `success: True` but no `pfp` key makes
`get_pfp` return `None`, which is neither a URL string nor `False`. -/
theorem get_pfp_missing_pfp_none (g : BrownieGate) (uid : Bytes) (resp : HttpResponse)
    (hs : resp.status = 200)
    (hsu : dictGet resp.body (strB "success") = .bool true)
    (hmiss : resp.body.lookup (strB "pfp") = Option.none) :
    (get_pfp g uid resp).result = .ok .none
    ∧ PyValue.none ≠ .bool false ∧ ∀ s, PyValue.none ≠ .str s := by
  refine ⟨?_, fun hcontra => PyValue.noConfusion hcontra,
    fun s hcontra => PyValue.noConfusion hcontra⟩
  have h2 : dictGet resp.body (strB "pfp") = .none := by simp [dictGet, hmiss]
  simp [get_pfp, hs, hsu, h2, PyValue.truthy]

/-- C9 witness. -/
theorem get_pfp_missing_pfp_none_witness :
    (get_pfp gEx (strB "u") ⟨200, [(strB "success", PyValue.bool true)]⟩).result = .ok .none
    ∧ PyValue.none ≠ .bool false ∧ ∀ s, PyValue.none ≠ .str s :=
  get_pfp_missing_pfp_none gEx (strB "u") ⟨200, [(strB "success", PyValue.bool true)]⟩
    rfl rfl rfl

/-- C10: a missing `timestamp` key raises an unwrapped `TypeError` and an
unparseable timestamp string an unwrapped `ValueError`, in both cases
before any freshness decision or remote call, and neither is one of the
spec's wrapped error kinds. -/
theorem verify_payload_bad_timestamp_unwrapped (g : BrownieGate)
    (p : List (Bytes × PyValue)) (now : Int) (resp : HttpResponse) :
    (p.lookup (strB "timestamp") = Option.none →
      verify_payload g p now resp = ⟨[], [], .error .typeError⟩)
    ∧ (∀ s, dictGet p (strB "timestamp") = .str s → parseIso s = Option.none →
      verify_payload g p now resp = ⟨[], [], .error .valueError⟩)
    ∧ PyErr.typeError ≠ .decryptionError ∧ PyErr.typeError ≠ .communicationError
    ∧ PyErr.valueError ≠ .decryptionError ∧ PyErr.valueError ≠ .communicationError := by
  refine ⟨?_, ?_, by decide, by decide, by decide, by decide⟩
  · intro hmiss
    simp [verify_payload, dictGet, hmiss, fromisoformat]
  · intro s hstr hbad
    simp [verify_payload, hstr, fromisoformat, hbad]

/-- C10 witness: an empty payload dict and a `garbage` timestamp. -/
theorem verify_payload_bad_timestamp_unwrapped_witness :
    (verify_payload gEx [] 0 ⟨200, []⟩ = ⟨[], [], .error .typeError⟩)
    ∧ (verify_payload gEx [(strB "timestamp", PyValue.str (strB "garbage"))] 0 ⟨200, []⟩
        = ⟨[], [], .error .valueError⟩) :=
  ⟨(verify_payload_bad_timestamp_unwrapped gEx [] 0 ⟨200, []⟩).1 rfl,
   (verify_payload_bad_timestamp_unwrapped gEx
      [(strB "timestamp", PyValue.str (strB "garbage"))] 0 ⟨200, []⟩).2.1
      (strB "garbage") rfl rfl⟩
